import Mathlib

/-!
Verification of lgrep (a local semantic code-search engine) against its
specification.  The Go sources are shallowly embedded: pure functions become
Lean functions over `String`/`List`/`Int`/`ℚ`, the SQLite-backed store
becomes an explicit relational state, and external effects (the embedding
HTTP client, the sqlite-vec distance metric, filesystem stat/read) become
explicit parameters or oracles.  Go `int` is modelled as `Int` (no overflow
is relevant at the sizes involved), Go `string` as Lean `String`
(`utf8.RuneCountInString` = `String.length`, both count codepoints).
-/

namespace Lgrep

/-! ## Go standard-library helpers used by the embedded code -/

/-- Go `unicode.IsSpace`: the Unicode White_Space property
(`\t \n \v \f \r ' '` U+0085 U+00A0 U+1680 U+2000..U+200A U+2028 U+2029
U+202F U+205F U+3000). -/
def goIsSpace (c : Char) : Bool :=
  c = ' ' || c = '\t' || c = '\n' || c.val = 11 || c.val = 12 || c = '\r' ||
  c.val = 0x85 || c.val = 0xA0 || c.val = 0x1680 ||
  (0x2000 ≤ c.val && c.val ≤ 0x200A) ||
  c.val = 0x2028 || c.val = 0x2029 || c.val = 0x202F || c.val = 0x205F ||
  c.val = 0x3000

/-- Go `strings.TrimSpace`: strip leading and trailing White_Space. -/
def goTrimSpace (s : String) : String :=
  String.mk (((s.toList.dropWhile goIsSpace).reverse.dropWhile goIsSpace).reverse)

/-- Whether `sub` occurs as a contiguous run of `s` (Go `strings.Contains`
on the character lists). -/
def charsHaveSub (sub : List Char) : List Char → Bool
  | [] => sub.isEmpty
  | c :: rest => sub.isPrefixOf (c :: rest) || charsHaveSub sub rest

/-- Go `strings.Contains`. -/
def goContains (s sub : String) : Bool :=
  charsHaveSub sub.toList s.toList

/-- Go `strings.HasPrefix`, on the character lists. -/
def goHasPrefix (s pre : String) : Bool :=
  pre.toList.isPrefixOf s.toList

/-- Go `strings.Split(s, "\n")` (single-character separator). -/
def splitCharsNL : List Char → List (List Char)
  | [] => [[]]
  | c :: rest =>
    if c = '\n' then [] :: splitCharsNL rest
    else
      match splitCharsNL rest with
      | [] => [[c]]
      | l :: ls => (c :: l) :: ls

/-- Go `strings.Split(content, "\n")`. -/
def goSplitNL (s : String) : List String :=
  (splitCharsNL s.toList).map String.mk

/-- Go `strings.Join(lines, "\n")`. -/
def goJoinNL (lines : List String) : String :=
  String.intercalate "\n" lines

/-- Go `path/filepath.Base` (unix): last element of the path after
stripping trailing slashes; `"."` for the empty path, `"/"` for all-slashes. -/
def goFilepathBase (p : String) : String :=
  if p = "" then "."
  else
    let cs := p.toList.reverse.dropWhile (· = '/')
    if cs = [] then "/"
    else String.mk ((cs.takeWhile (· ≠ '/')).reverse)

/-- Scan the reversed character list of a path for the extension:
stop at a path separator, return the suffix from the final dot. -/
def goFilepathExtAux : List Char → List Char → Option (List Char)
  | [], _ => none
  | c :: rest, acc =>
    if c = '/' then none
    else if c = '.' then some (c :: acc)
    else goFilepathExtAux rest (c :: acc)

/-- Go `path/filepath.Ext`: the suffix beginning at the final dot in the
final element of the path; empty when there is no dot. -/
def goFilepathExt (p : String) : String :=
  match goFilepathExtAux p.toList.reverse [] with
  | none => ""
  | some cs => String.mk cs

/-- Go `strings.ToLower` (ASCII letters; no non-ASCII case folding occurs
in the inputs this program lowercases: file extensions and filenames). -/
def goToLower (s : String) : String :=
  String.mk (s.toList.map Char.toLower)

/-! ## internal/fs: language detection (`DetectLanguage`,
`SupportsCodeChunking`) -/

/-- `extToLang`: extension → language table. -/
def extToLang : List (String × String) :=
  [(".go", "go"),
   (".ts", "typescript"), (".tsx", "typescript"), (".mts", "typescript"),
   (".cts", "typescript"),
   (".js", "javascript"), (".jsx", "javascript"), (".mjs", "javascript"),
   (".cjs", "javascript"),
   (".py", "python"), (".pyi", "python"), (".pyw", "python"),
   (".rs", "rust"),
   (".java", "java"),
   (".c", "c"), (".h", "c"),
   (".cc", "cpp"), (".cpp", "cpp"), (".cxx", "cpp"), (".hpp", "cpp"),
   (".hxx", "cpp"),
   (".cs", "csharp"),
   (".rb", "ruby"), (".rake", "ruby"),
   (".php", "php"),
   (".swift", "swift"),
   (".kt", "kotlin"), (".kts", "kotlin"),
   (".scala", "scala"),
   (".sh", "shell"), (".bash", "shell"), (".zsh", "shell"), (".fish", "shell"),
   (".sql", "sql"),
   (".html", "html"), (".htm", "html"),
   (".css", "css"), (".scss", "css"), (".sass", "css"), (".less", "css"),
   (".json", "json"), (".jsonc", "json"),
   (".yaml", "yaml"), (".yml", "yaml"),
   (".toml", "toml"), (".xml", "xml"),
   (".md", "markdown"), (".markdown", "markdown"),
   (".txt", "text"), (".text", "text"), (".rst", "text")]

/-- `filenameToLang`: well-known filename → language table. -/
def filenameToLang : List (String × String) :=
  [("Makefile", "shell"), ("makefile", "shell"),
   ("Dockerfile", "shell"), ("dockerfile", "shell"),
   ("Rakefile", "ruby"), ("Gemfile", "ruby"),
   ("Jenkinsfile", "shell"),
   (".bashrc", "shell"), (".zshrc", "shell"), (".profile", "shell"),
   (".gitignore", "text"), (".gitconfig", "text"), (".editorconfig", "text")]

/-- `DetectLanguage`: well-known filenames first, then the lowercased
extension; unknown is the empty tag. -/
def DetectLanguage (path : String) : String :=
  let filename := goFilepathBase path
  match filenameToLang.lookup filename with
  | some lang => lang
  | none =>
    match extToLang.lookup (goToLower (goFilepathExt path)) with
    | some lang => lang
    | none => ""

/-- `SupportsCodeChunking`: languages that get code-aware chunking. -/
def SupportsCodeChunking (lang : String) : Bool :=
  lang = "go" || lang = "typescript" || lang = "javascript" ||
  lang = "python" || lang = "rust" || lang = "java" || lang = "c" ||
  lang = "cpp" || lang = "csharp" || lang = "ruby" || lang = "php" ||
  lang = "swift" || lang = "kotlin" || lang = "scala"

/-! ## internal/watcher: `isIndexableFile`

`os.Stat` is modelled by the `statSize : Option Int` argument
(`none` = stat error). -/

/-- `Watcher.isIndexableFile`: extension non-empty, language known,
stat succeeds, size within `max_file_size` (when positive). -/
def isIndexableFile (path : String) (statSize : Option Int)
    (maxFileSize : Int) : Bool :=
  let ext := goToLower (goFilepathExt path)
  if ext = "" then false
  else if DetectLanguage path = "" then false
  else
    match statSize with
    | none => false
    | some size => !(maxFileSize > 0 && size > maxFileSize)

/-! ## internal/fs: the chunker (`TextChunker`)

Character counts are codepoint counts: Go `utf8.RuneCountInString` =
`String.length`.  Go `int` fields become `Int`. -/

/-- `fs.ChunkOptions`. -/
structure ChunkOptions where
  chunkSize : Int
  chunkOverlap : Int
  minChunkSize : Int
deriving Repr, DecidableEq

/-- `fs.Chunk` (the chunker's output record). -/
structure GoChunk where
  content : String
  startLine : Int
  endLine : Int
  startChar : Int
  endChar : Int
  chunkIndex : Int
deriving Repr, DecidableEq

/-- The mutable locals of `chunkText`'s line loop. -/
structure TCState where
  chunks : List GoChunk
  chunkStart : Int
  chunkStartChar : Int
  currentSize : Int
  currentLines : List String
deriving Repr, DecidableEq

/-- `chunkText`'s initial loop state. -/
def initTCState : TCState :=
  { chunks := [], chunkStart := 0, chunkStartChar := 0, currentSize := 0,
    currentLines := [] }

/-- The backwards walk of `calculateOverlap`, consuming the reversed line
list: while the accumulated size is below `chunk_overlap`, prepend the line
and add its length plus one. -/
def calcOverlapAux (overlap : Int) : List String → List String → Int →
    List String × Int
  | [], acc, size => (acc, size)
  | l :: rest, acc, size =>
    if size < overlap then
      calcOverlapAux overlap rest (l :: acc) (size + ((l.length : Int) + 1))
    else (acc, size)

/-- `TextChunker.calculateOverlap`: the trailing lines of the just-emitted
chunk whose cumulative size reaches `chunk_overlap`, with that size. -/
def calculateOverlap (opts : ChunkOptions) (lines : List String) :
    List String × Int :=
  if opts.chunkOverlap ≤ 0 || lines.isEmpty then ([], 0)
  else calcOverlapAux opts.chunkOverlap lines.reverse [] 0

/-- One pass of `chunkText`'s loop body for the line at index `lineNum`. -/
def chunkTextStep (opts : ChunkOptions) (lineNum : Int) (line : String)
    (st : TCState) : TCState :=
  let lineLen : Int := (line.length : Int) + 1
  let st :=
    if st.currentSize + lineLen > opts.chunkSize && !st.currentLines.isEmpty
    then
      let emitted : GoChunk :=
        { content := goJoinNL st.currentLines,
          startLine := st.chunkStart + 1,
          endLine := st.chunkStart + st.currentLines.length,
          startChar := st.chunkStartChar,
          endChar := st.chunkStartChar + st.currentSize - 1,
          chunkIndex := st.chunks.length }
      let ov := calculateOverlap opts st.currentLines
      { chunks := st.chunks ++ [emitted],
        currentLines := ov.1,
        chunkStart := lineNum - ov.1.length,
        chunkStartChar := st.chunkStartChar + st.currentSize - ov.2,
        currentSize := ov.2 }
    else st
  { st with currentLines := st.currentLines ++ [line],
            currentSize := st.currentSize + lineLen }

/-- `chunkText`'s loop over the lines, carrying the 0-based line index. -/
def chunkTextGo (opts : ChunkOptions) : List String → Int → TCState → TCState
  | [], _, st => st
  | line :: rest, lineNum, st =>
    chunkTextGo opts rest (lineNum + 1) (chunkTextStep opts lineNum line st)

/-- The final chunk `chunkText` builds from the leftover buffer. -/
def finalChunk (st : TCState) : GoChunk :=
  { content := goJoinNL st.currentLines,
    startLine := st.chunkStart + 1,
    endLine := st.chunkStart + st.currentLines.length,
    startChar := st.chunkStartChar,
    endChar := st.chunkStartChar + st.currentSize - 1,
    chunkIndex := st.chunks.length }

/-- `chunkText`'s trailing-buffer handling: emit when it is the only chunk
or long enough, otherwise merge it into the previous chunk. -/
def chunkTextFinal (opts : ChunkOptions) (st : TCState) : List GoChunk :=
  if st.currentLines.isEmpty then st.chunks
  else
    let content := goJoinNL st.currentLines
    if st.chunks.isEmpty || (content.length : Int) ≥ opts.minChunkSize then
      st.chunks ++ [finalChunk st]
    else if !st.chunks.isEmpty then
      match st.chunks.getLast? with
      | none => st.chunks
      | some prev =>
        st.chunks.dropLast ++
          [{ prev with
              content := prev.content ++ "\n" ++ content,
              endLine := st.chunkStart + st.currentLines.length,
              endChar := st.chunkStartChar + st.currentSize - 1 }]
    else st.chunks

/-- The state of `chunkText`'s loop after all lines are consumed. -/
def chunkTextLoop (opts : ChunkOptions) (content : String) : TCState :=
  chunkTextGo opts (goSplitNL content) 0 initTCState

/-- `TextChunker.chunkText`. -/
def chunkText (opts : ChunkOptions) (content : String) : List GoChunk :=
  chunkTextFinal opts (chunkTextLoop opts content)

/-- `isDefinitionStart`: language-specific predicates on the trimmed line. -/
def isDefinitionStart (line lang : String) : Bool :=
  if lang = "go" then
    line.startsWith "func " || line.startsWith "type " ||
    line.startsWith "const " || line.startsWith "var "
  else if lang = "typescript" || lang = "javascript" then
    line.startsWith "function " || line.startsWith "class " ||
    line.startsWith "interface " || line.startsWith "type " ||
    line.startsWith "const " || line.startsWith "let " ||
    line.startsWith "export function " || line.startsWith "export class " ||
    line.startsWith "export interface " || line.startsWith "export type " ||
    line.startsWith "export const " || line.startsWith "export default "
  else if lang = "python" then
    line.startsWith "def " || line.startsWith "class " ||
    line.startsWith "async def "
  else if lang = "rust" then
    line.startsWith "fn " || line.startsWith "pub fn " ||
    line.startsWith "struct " || line.startsWith "pub struct " ||
    line.startsWith "enum " || line.startsWith "pub enum " ||
    line.startsWith "impl " || line.startsWith "trait " ||
    line.startsWith "pub trait "
  else if lang = "java" then
    goContains line "class " || goContains line "interface " ||
    goContains line "enum " ||
    (goContains line "(" && goContains line ")" &&
      (goContains line "public " || goContains line "private " ||
       goContains line "protected " || goContains line "static "))
  else if lang = "c" || lang = "cpp" then
    (goContains line "(" && !line.endsWith ";" &&
      !line.startsWith "//" && !line.startsWith "#") ||
    line.startsWith "struct " || line.startsWith "class " ||
    line.startsWith "namespace "
  else if lang = "csharp" then
    goContains line "class " || goContains line "interface " ||
    goContains line "struct " || goContains line "enum " ||
    goContains line "namespace "
  else if lang = "ruby" then
    line.startsWith "def " || line.startsWith "class " ||
    line.startsWith "module "
  else if lang = "php" then
    line.startsWith "function " || goContains line "class " ||
    goContains line "interface " || goContains line "trait "
  else if lang = "swift" then
    line.startsWith "func " || line.startsWith "class " ||
    line.startsWith "struct " || line.startsWith "enum " ||
    line.startsWith "protocol " || line.startsWith "extension "
  else if lang = "kotlin" then
    line.startsWith "fun " || line.startsWith "class " ||
    line.startsWith "interface " || line.startsWith "object " ||
    line.startsWith "data class "
  else if lang = "scala" then
    line.startsWith "def " || line.startsWith "class " ||
    line.startsWith "object " || line.startsWith "trait " ||
    line.startsWith "case class "
  else false

/-- `findCodeBoundaries`'s line scan, carrying the index and the
block-comment flag. -/
def findBoundariesAux (lang : String) : List String → Nat → Bool → List Nat
  | [], _, _ => []
  | line :: rest, i, inComment =>
    let trimmed := goTrimSpace line
    if trimmed = "" then findBoundariesAux lang rest (i + 1) inComment
    else
      let inComment := if goContains trimmed "/*" then true else inComment
      if goContains trimmed "*/" then findBoundariesAux lang rest (i + 1) false
      else if inComment then findBoundariesAux lang rest (i + 1) inComment
      else if isDefinitionStart trimmed lang then
        i :: findBoundariesAux lang rest (i + 1) inComment
      else findBoundariesAux lang rest (i + 1) inComment

/-- `findCodeBoundaries`: definition-start line indices, with line 0
prepended when the first boundary is later (or when there is none). -/
def findCodeBoundaries (lines : List String) (lang : String) : List Nat :=
  let boundaries := findBoundariesAux lang lines 0 false
  match boundaries with
  | [] => [0]
  | b :: _ => if b > 0 then 0 :: boundaries else boundaries

/-- The per-sub-chunk adjustment of `chunkCode`'s oversized-block branch:
shift lines/chars by the block origin and renumber `chunk_index`. -/
def appendSubChunks (b : Nat) (charOffset : Int) (chunks : List GoChunk)
    (subs : List GoChunk) : List GoChunk :=
  subs.foldl
    (fun acc sub =>
      acc ++ [{ sub with
                  startLine := sub.startLine + (b : Int),
                  endLine := sub.endLine + (b : Int),
                  startChar := sub.startChar + charOffset,
                  endChar := sub.endChar + charOffset,
                  chunkIndex := acc.length }])
    chunks

/-- `chunkCode`'s loop over the boundaries, carrying the character offset
and the chunks accumulated so far. -/
def chunkCodeGo (opts : ChunkOptions) (lines : List String) :
    List Nat → Int → List GoChunk → List GoChunk
  | [], _, chunks => chunks
  | b :: rest, charOffset, chunks =>
    let endL : Nat := match rest with | [] => lines.length | b2 :: _ => b2
    let chunkLines := (lines.drop b).take (endL - b)
    let chunkContent := goJoinNL chunkLines
    let chunkLen : Int := chunkContent.length
    let chunks :=
      if chunkLen > opts.chunkSize * 2 then
        appendSubChunks b charOffset chunks (chunkText opts chunkContent)
      else if chunkLen ≥ opts.minChunkSize then
        chunks ++ [{ content := chunkContent,
                     startLine := (b : Int) + 1,
                     endLine := (endL : Int),
                     startChar := charOffset,
                     endChar := charOffset + chunkLen,
                     chunkIndex := chunks.length }]
      else chunks
    let charOffset := charOffset +
      (chunkLines.foldl (fun s l => s + ((l.length : Int) + 1)) 0)
    chunkCodeGo opts lines rest charOffset chunks

/-- `TextChunker.chunkCode`: split at code boundaries, falling back to text
chunking when no boundaries or no chunks are produced. -/
def chunkCode (opts : ChunkOptions) (content : String) (lang : String) :
    List GoChunk :=
  let lines := goSplitNL content
  let boundaries := findCodeBoundaries lines lang
  if boundaries.isEmpty then chunkText opts content
  else
    let chunks := chunkCodeGo opts lines boundaries 0 []
    if chunks.isEmpty then chunkText opts content else chunks

/-- `TextChunker.Chunk`: dispatch on content emptiness and code-chunking
support of the detected language. -/
def chunkerChunk (opts : ChunkOptions) (content filename : String) :
    List GoChunk :=
  if content = "" then []
  else
    let lang := DetectLanguage filename
    if SupportsCodeChunking lang then chunkCode opts content lang
    else chunkText opts content

/-! ## Chunker lemmas -/

theorem splitCharsNL_ne_nil (cs : List Char) : splitCharsNL cs ≠ [] := by
  induction cs with
  | nil => simp [splitCharsNL]
  | cons c rest ih =>
    simp only [splitCharsNL]
    split
    · simp
    · cases h : splitCharsNL rest with
      | nil => simp
      | cons l ls => simp

theorem goSplitNL_ne_nil (s : String) : goSplitNL s ≠ [] := by
  intro h
  exact splitCharsNL_ne_nil s.toList (List.map_eq_nil_iff.mp h)

theorem chunkTextGo_currentLines (opts : ChunkOptions) :
    ∀ (lines : List String) (n : Int) (st : TCState), lines ≠ [] →
      (chunkTextGo opts lines n st).currentLines ≠ [] := by
  intro lines
  induction lines with
  | nil => intro n st h; exact absurd rfl h
  | cons line rest ih =>
    intro n st _
    rcases eq_or_ne rest [] with hr | hr
    · subst hr
      simp only [chunkTextGo, chunkTextStep]
      intro h
      exact List.append_ne_nil_of_right_ne_nil _ (by simp) h
    · exact ih (n + 1) _ hr

theorem chunkTextLoop_currentLines (opts : ChunkOptions) (content : String) :
    (chunkTextLoop opts content).currentLines ≠ [] :=
  chunkTextGo_currentLines opts _ 0 _ (goSplitNL_ne_nil content)

/-- The chunk indices of a list, as stored in the `chunk_index` field. -/
def chunkIdxList (cs : List GoChunk) : List Int :=
  cs.map (fun c => c.chunkIndex)

/-- The `chunk_index` fields are exactly the 0-based positions. -/
def IdxOK (cs : List GoChunk) : Prop :=
  chunkIdxList cs = (List.range cs.length).map Int.ofNat

theorem idxOK_nil : IdxOK [] := rfl

theorem idxOK_snoc {cs : List GoChunk} {c : GoChunk} (h : IdxOK cs)
    (hc : c.chunkIndex = (cs.length : Int)) : IdxOK (cs ++ [c]) := by
  unfold IdxOK chunkIdxList at h ⊢
  simp only [List.map_append, List.length_append, List.length_singleton,
    List.range_succ, List.map_cons, List.map_nil]
  rw [h, hc]
  rfl

theorem idxOK_update_last {pre : List GoChunk} {l l' : GoChunk}
    (h : IdxOK (pre ++ [l])) (he : l'.chunkIndex = l.chunkIndex) :
    IdxOK (pre ++ [l']) := by
  unfold IdxOK chunkIdxList at h ⊢
  simpa [he] using h

theorem chunkTextStep_idx (opts : ChunkOptions) (n : Int) (line : String)
    (st : TCState) (h : IdxOK st.chunks) :
    IdxOK (chunkTextStep opts n line st).chunks := by
  unfold chunkTextStep
  dsimp only
  split
  · exact idxOK_snoc h rfl
  · exact h

theorem chunkTextGo_idx (opts : ChunkOptions) :
    ∀ (lines : List String) (n : Int) (st : TCState), IdxOK st.chunks →
      IdxOK (chunkTextGo opts lines n st).chunks := by
  intro lines
  induction lines with
  | nil => intro n st h; exact h
  | cons line rest ih =>
    intro n st h
    exact ih (n + 1) _ (chunkTextStep_idx opts n line st h)

/-- The merged last chunk of `chunkText`'s undersized-trailing-buffer branch:
the previous chunk with the buffer concatenated after a joining newline and
the line/char ranges extended. -/
def mergedLast (st : TCState) (l : GoChunk) : GoChunk :=
  { l with
      content := l.content ++ "\n" ++ goJoinNL st.currentLines,
      endLine := st.chunkStart + st.currentLines.length,
      endChar := st.chunkStartChar + st.currentSize - 1 }

theorem chunkTextFinal_only (opts : ChunkOptions) (st : TCState)
    (hcl : st.currentLines ≠ []) (h0 : st.chunks = []) :
    chunkTextFinal opts st = [finalChunk st] := by
  simp [chunkTextFinal, h0, hcl]

theorem chunkTextFinal_emit (opts : ChunkOptions) (st : TCState)
    (hcl : st.currentLines ≠ [])
    (hge : opts.minChunkSize ≤ ((goJoinNL st.currentLines).length : Int)) :
    chunkTextFinal opts st = st.chunks ++ [finalChunk st] := by
  simp [chunkTextFinal, hcl, hge]

theorem chunkTextFinal_merge (opts : ChunkOptions) (st : TCState)
    (pre : List GoChunk) (l : GoChunk)
    (hcl : st.currentLines ≠ []) (hpre : st.chunks = pre ++ [l])
    (hlt : ((goJoinNL st.currentLines).length : Int) < opts.minChunkSize) :
    chunkTextFinal opts st = pre ++ [mergedLast st l] := by
  have h0 : st.chunks ≠ [] := by simp [hpre]
  simp [chunkTextFinal, hcl, h0, not_le.mpr hlt, hpre, mergedLast]

theorem chunkTextFinal_idx (opts : ChunkOptions) (st : TCState)
    (hcl : st.currentLines ≠ []) (h : IdxOK st.chunks) :
    IdxOK (chunkTextFinal opts st) := by
  rcases eq_or_ne st.chunks [] with h0 | h0
  · rw [chunkTextFinal_only opts st hcl h0]
    have := @idxOK_snoc [] (finalChunk st) idxOK_nil
    simp only [List.nil_append] at this
    apply this
    simp [finalChunk, h0]
  · rcases le_or_lt opts.minChunkSize ((goJoinNL st.currentLines).length : Int)
      with hge | hlt
    · rw [chunkTextFinal_emit opts st hcl hge]
      exact idxOK_snoc h rfl
    · obtain ⟨pre, l, hpre⟩ := (List.eq_nil_or_concat' _).resolve_left h0
      rw [chunkTextFinal_merge opts st pre l hcl hpre hlt]
      rw [hpre] at h
      exact idxOK_update_last h rfl

theorem chunkText_idx (opts : ChunkOptions) (content : String) :
    IdxOK (chunkText opts content) :=
  chunkTextFinal_idx opts _ (chunkTextLoop_currentLines opts content)
    (chunkTextGo_idx opts _ 0 _ idxOK_nil)

theorem appendSubChunks_idx (b : Nat) (off : Int) :
    ∀ (subs : List GoChunk) (chunks : List GoChunk), IdxOK chunks →
      IdxOK (appendSubChunks b off chunks subs) := by
  intro subs
  induction subs with
  | nil => intro chunks h; exact h
  | cons sub rest ih =>
    intro chunks h
    exact ih _ (idxOK_snoc h rfl)

theorem chunkCodeGo_idx (opts : ChunkOptions) (lines : List String) :
    ∀ (bs : List Nat) (off : Int) (chunks : List GoChunk), IdxOK chunks →
      IdxOK (chunkCodeGo opts lines bs off chunks) := by
  intro bs
  induction bs with
  | nil => intro off chunks h; exact h
  | cons b rest ih =>
    intro off chunks h
    simp only [chunkCodeGo]
    apply ih
    split
    · exact appendSubChunks_idx _ _ _ _ h
    · split
      · exact idxOK_snoc h rfl
      · exact h

theorem chunkCode_idx (opts : ChunkOptions) (content lang : String) :
    IdxOK (chunkCode opts content lang) := by
  unfold chunkCode
  dsimp only
  split
  · exact chunkText_idx opts content
  · split
    · exact chunkText_idx opts content
    · exact chunkCodeGo_idx opts _ _ 0 [] idxOK_nil

theorem chunkText_ne_nil (opts : ChunkOptions) (content : String) :
    chunkText opts content ≠ [] := by
  unfold chunkText
  have hcl := chunkTextLoop_currentLines opts content
  rcases eq_or_ne (chunkTextLoop opts content).chunks [] with h0 | h0
  · rw [chunkTextFinal_only opts _ hcl h0]
    simp
  · rcases le_or_lt opts.minChunkSize
        (((goJoinNL (chunkTextLoop opts content).currentLines).length : Int))
      with hge | hlt
    · rw [chunkTextFinal_emit opts _ hcl hge]
      simp
    · obtain ⟨pre, l, hpre⟩ := (List.eq_nil_or_concat' _).resolve_left h0
      rw [chunkTextFinal_merge opts _ pre l hcl hpre hlt]
      simp

theorem chunkCode_ne_nil (opts : ChunkOptions) (content lang : String) :
    chunkCode opts content lang ≠ [] := by
  unfold chunkCode
  dsimp only
  split
  · exact chunkText_ne_nil opts content
  · split
    · exact chunkText_ne_nil opts content
    · next h => simpa using h

/-! ## Claim C5 and C10 theorems -/

/-- **C5.** In `chunkText`, the final partial buffer (the loop's leftover
`currentLines`) is handled as follows: if no chunk was emitted by the loop it
becomes the single emitted chunk regardless of its length; otherwise it is
emitted as an extra chunk exactly when its codepoint length is at least
`min_chunk_size`; otherwise it is concatenated with a joining newline into
the previously emitted chunk, extending that chunk's `end_line` and
character range.  Consequently a chunk appended after earlier chunks always
has codepoint length at least `min_chunk_size`: no trailing chunk shorter
than `min_chunk_size` is emitted as a separate non-first chunk. -/
theorem chunkText_finalBuffer_spec (opts : ChunkOptions) (content : String) :
    ((chunkTextLoop opts content).chunks = [] →
      chunkText opts content = [finalChunk (chunkTextLoop opts content)]) ∧
    ((chunkTextLoop opts content).chunks ≠ [] →
      opts.minChunkSize ≤
        ((goJoinNL (chunkTextLoop opts content).currentLines).length : Int) →
      chunkText opts content =
        (chunkTextLoop opts content).chunks ++
          [finalChunk (chunkTextLoop opts content)]) ∧
    (∀ pre l, (chunkTextLoop opts content).chunks = pre ++ [l] →
      ((goJoinNL (chunkTextLoop opts content).currentLines).length : Int) <
        opts.minChunkSize →
      chunkText opts content =
        pre ++ [mergedLast (chunkTextLoop opts content) l]) ∧
    (∀ c, (chunkTextLoop opts content).chunks ≠ [] →
      chunkText opts content = (chunkTextLoop opts content).chunks ++ [c] →
      opts.minChunkSize ≤ (c.content.length : Int)) := by
  have hcl := chunkTextLoop_currentLines opts content
  refine ⟨?_, ?_, ?_, ?_⟩
  · intro h0
    exact chunkTextFinal_only opts _ hcl h0
  · intro _ hge
    exact chunkTextFinal_emit opts _ hcl hge
  · intro pre l hpre hlt
    exact chunkTextFinal_merge opts _ pre l hcl hpre hlt
  · intro c h0 heq
    rcases le_or_lt opts.minChunkSize
        (((goJoinNL (chunkTextLoop opts content).currentLines).length : Int))
      with hge | hlt
    · have he := chunkTextFinal_emit opts (chunkTextLoop opts content) hcl hge
      rw [chunkText] at heq
      rw [he] at heq
      have hc : c = finalChunk (chunkTextLoop opts content) :=
        by simpa using (List.append_cancel_left heq).symm
      rw [hc]
      simpa [finalChunk] using hge
    · obtain ⟨pre, l, hpre⟩ :=
        (List.eq_nil_or_concat' (chunkTextLoop opts content).chunks).resolve_left h0
      have hm := chunkTextFinal_merge opts _ pre l hcl hpre hlt
      rw [chunkText] at heq
      rw [hm, hpre] at heq
      have := congrArg List.length heq
      simp at this

/-- **C10.** `TextChunker.Chunk` returns no chunks for empty content and a
non-empty chunk list for any non-empty content (the code-aware path falls
back to text chunking whenever it would produce zero chunks, and text
chunking never produces zero chunks); and the `chunk_index` fields of the
returned chunks are exactly their 0-based positions 0, 1, 2, …. -/
theorem chunkerChunk_spec (opts : ChunkOptions) (content filename : String) :
    (content = "" → chunkerChunk opts content filename = []) ∧
    (content ≠ "" → chunkerChunk opts content filename ≠ []) ∧
    chunkIdxList (chunkerChunk opts content filename) =
      (List.range (chunkerChunk opts content filename).length).map Int.ofNat ∧
    (∀ lang, chunkCode opts content lang ≠ []) := by
  refine ⟨?_, ?_, ?_, ?_⟩
  · intro h
    simp [chunkerChunk, h]
  · intro h
    unfold chunkerChunk
    dsimp only
    rw [if_neg h]
    split
    · exact chunkCode_ne_nil opts content _
    · exact chunkText_ne_nil opts content
  · show IdxOK (chunkerChunk opts content filename)
    unfold chunkerChunk
    dsimp only
    split
    · exact idxOK_nil
    · split
      · exact chunkCode_idx opts content _
      · exact chunkText_idx opts content
  · intro lang
    exact chunkCode_ne_nil opts content lang

/-! ## internal/watcher: debounce map and reconciler

`fsnotify.Op` is a bitmask (`Create=1, Write=2, Remove=4, Rename=8,
Chmod=16`); `Op.Has(h)` is `o&h != 0`.  The pending map is modelled as an
association list whose update replaces the stored op in place.  `os.Stat`
is the `stat : Option (Bool × Int)` argument (`none` = stat error,
otherwise `(IsDir, Size)`). -/

/-- **C8 counterexample.** `Makefile` has a recognised language
(`DetectLanguage` returns `"shell"`) and a size within the limit, yet
`isIndexableFile` rejects it: the predicate first requires a non-empty
extension, so files with a recognised language but no extension are not
accepted for re-indexing. -/
theorem isIndexableFile_noExt_cex :
    DetectLanguage "Makefile" = "shell" ∧ ((10 : Int) ≤ 1048576) ∧
    goFilepathExt "Makefile" = "" ∧
    isIndexableFile "Makefile" (some 10) 1048576 = false := by
  refine ⟨by decide, by decide, by decide, by decide⟩

/-- **C8 (amended).** The Watcher's indexability predicate consults the
file's extension, its detected language and its size: a path is indexable
iff its lowercased extension is non-empty, its detected language is
non-empty, `os.Stat` succeeds, and the size does not exceed
`max_file_size` (when that limit is positive).  In particular
extensionless files such as `Makefile` or `Dockerfile` are rejected even
though their language is recognised. -/
theorem isIndexableFile_iff (path : String) (statSize : Option Int)
    (maxFileSize : Int) :
    isIndexableFile path statSize maxFileSize = true ↔
      (goToLower (goFilepathExt path) ≠ "" ∧ DetectLanguage path ≠ "" ∧
        ∃ size, statSize = some size ∧
          ¬(0 < maxFileSize ∧ maxFileSize < size)) := by
  unfold isIndexableFile
  dsimp only
  by_cases h1 : goToLower (goFilepathExt path) = ""
  · simp [h1]
  · rw [if_neg h1]
    by_cases h2 : DetectLanguage path = ""
    · simp [h1, h2]
    · rw [if_neg h2]
      cases statSize with
      | none => simp [h1, h2]
      | some size =>
        simp only [h1, h2, Bool.not_eq_true', Bool.and_eq_false_iff,
          decide_eq_false_iff_not, not_lt, ne_eq, not_false_iff, true_and,
          Option.some_inj, exists_eq_left', not_and]
        omega

/-! ## internal/mcp: the tool-server request loop

`encoding/json` is external, so parsing is an oracle
`parse : String → Option RpcRequest` (`none` = `json.Unmarshal` error).
Handler bodies (initialize / tools-list / tools-call) call into the
indexer and searcher; whether one returns a Go error is the oracle
`handlerFails : String → Bool` keyed by method name. -/

/-- A JSON-RPC id as unmarshalled into Go's `any` (`nil`, string or
number). -/
inductive JsonId where
  | null
  | str (s : String)
  | num (n : Int)
deriving Repr, DecidableEq

/-- `mcp.Request` (the `params` payload is handled inside the handlers and
is irrelevant to the dispatch being verified). -/
structure RpcRequest where
  jsonrpc : String
  id : JsonId
  method : String
deriving Repr, DecidableEq

/-- What one input line makes the server write: nothing, an error response
`{id, code}`, or a result response for `id`. -/
inductive ServerReply where
  | silent
  | errorReply (id : JsonId) (code : Int)
  | resultReply (id : JsonId)
deriving Repr, DecidableEq

/-- `mcp.ErrorCodeParse`. -/
def errorCodeParse : Int := -32700
/-- `mcp.ErrorCodeMethodNotFound`. -/
def errorCodeMethodNotFound : Int := -32601
/-- `mcp.ErrorCodeInternal`. -/
def errorCodeInternal : Int := -32603

/-- The tail of `handleRequest` shared by the handler methods: a handler
error becomes `-32603 Internal error`, otherwise a result is sent. -/
def replyAfterHandler (failed : Bool) (req : RpcRequest) : ServerReply :=
  if failed then .errorReply req.id errorCodeInternal
  else .resultReply req.id

/-- `Server.handleRequest`: the method switch. -/
def handleRequest (handlerFails : String → Bool) (req : RpcRequest) :
    ServerReply :=
  if req.method = "initialize" then
    replyAfterHandler (handlerFails "initialize") req
  else if req.method = "initialized" then .silent
  else if req.method = "tools/list" then
    replyAfterHandler (handlerFails "tools/list") req
  else if req.method = "tools/call" then
    replyAfterHandler (handlerFails "tools/call") req
  else if req.method = "ping" then .resultReply req.id
  else .errorReply req.id errorCodeMethodNotFound

/-- One iteration of `Server.Run`'s read loop, for one input line:
trim; skip whitespace-only lines; a parse failure is answered with
`-32700` and a `nil` id; otherwise dispatch. -/
def processLine (parse : String → Option RpcRequest)
    (handlerFails : String → Bool) (line : String) : ServerReply :=
  let t := goTrimSpace line
  if t = "" then .silent
  else
    match parse t with
    | none => .errorReply .null errorCodeParse
    | some req => handleRequest handlerFails req

/-- **C7.** For every line the Tool Server reads: a whitespace-only line
produces no response; a non-whitespace line that fails to parse as JSON is
answered with a JSON-RPC error of code `-32700` (and a null id); and a
parsed request whose method is none of `initialize`, `initialized`,
`tools/list`, `tools/call`, `ping` is answered with a JSON-RPC error of
code `-32601` carrying the request's id. -/
theorem toolServer_line_spec (parse : String → Option RpcRequest)
    (handlerFails : String → Bool) (line : String) :
    (goTrimSpace line = "" →
      processLine parse handlerFails line = .silent) ∧
    (goTrimSpace line ≠ "" → parse (goTrimSpace line) = none →
      processLine parse handlerFails line = .errorReply .null (-32700)) ∧
    (∀ req, goTrimSpace line ≠ "" → parse (goTrimSpace line) = some req →
      req.method ∉ (["initialize", "initialized", "tools/list",
        "tools/call", "ping"] : List String) →
      processLine parse handlerFails line =
        .errorReply req.id (-32601)) := by
  refine ⟨?_, ?_, ?_⟩
  · intro h
    simp [processLine, h]
  · intro h hp
    simp [processLine, h, hp, errorCodeParse]
  · intro req h hp hm
    simp only [List.mem_cons, List.mem_singleton, not_or] at hm
    obtain ⟨h1, h2, h3, h4, h5, _⟩ := hm
    simp [processLine, h, hp, handleRequest, h1, h2, h3, h4, h5,
      errorCodeMethodNotFound]

/-! ## internal/store: relational state of the SQLite database

Tables become lists of rows; `INTEGER PRIMARY KEY` ids become `Nat`
counters (`nextFileId`, `nextChunkId`) assigned on insert, as SQLite
assigns rowids.  Embeddings are `List ℚ` (the float32 payload is stored
and returned verbatim by the code; no float arithmetic happens on it in
the store).  Timestamps (`created_at`, `indexed_at`, …) are wall-clock
effects and are not modelled.  Database errors from any statement are an
oracle `fail : Nat → Bool` over the statement's position; a `true` is a
failed `Exec`/`Commit`.  Every error path of `UpsertFile` returns the
caller-visible state unchanged, which models `defer tx.Rollback()`:
statements inside the transaction act on a transaction-local state that is
only installed by `Commit`. -/

/-- A row of `stores`. -/
structure StoreRow where
  id : Nat
  name : String
deriving Repr, DecidableEq

/-- A row of `files`. -/
structure FileRow where
  id : Nat
  storeId : Nat
  externalId : String
  path : String
  relativePath : String
  hash : String
  fileSize : Int
deriving Repr, DecidableEq

/-- A row of `chunks`. -/
structure ChunkRow where
  id : Nat
  fileId : Nat
  chunkIndex : Int
  content : String
  startLine : Int
  endLine : Int
deriving Repr, DecidableEq

/-- A row of `chunk_vectors`. -/
structure VectorRow where
  chunkId : Nat
  embedding : List ℚ
deriving Repr, DecidableEq

/-- The database state. -/
structure DBState where
  stores : List StoreRow
  files : List FileRow
  chunks : List ChunkRow
  vectors : List VectorRow
  nextFileId : Nat
  nextChunkId : Nat
deriving Repr, DecidableEq

/-- `store.FileInput`. -/
structure GoFileInput where
  externalId : String
  path : String
  relativePath : String
  hash : String
  fileSize : Int
deriving Repr, DecidableEq

/-- `store.Chunk` (upsert input). -/
structure StoreChunk where
  content : String
  startLine : Int
  endLine : Int
  chunkIndex : Int
deriving Repr, DecidableEq

/-- `SELECT id FROM files WHERE store_id = ? AND external_id = ?`
(also `GetFileByExternalID`'s row lookup). -/
def getFileRow (st : DBState) (storeId : Nat) (ext : String) :
    Option FileRow :=
  st.files.find? (fun f => f.storeId == storeId && f.externalId == ext)

/-- The chunk rows of one file, in table order. -/
def chunkRowsOfFile (st : DBState) (fid : Nat) : List ChunkRow :=
  st.chunks.filter (fun c => c.fileId == fid)

/-- `DELETE FROM chunk_vectors WHERE chunk_id IN
(SELECT id FROM chunks WHERE file_id = ?)`. -/
def deleteVectorsOfFile (st : DBState) (fid : Nat) : DBState :=
  { st with
    vectors := st.vectors.filter fun v =>
      !(st.chunks.any (fun c => c.fileId == fid && c.id == v.chunkId)) }

/-- `DELETE FROM chunks WHERE file_id = ?`. -/
def deleteChunksOfFile (st : DBState) (fid : Nat) : DBState :=
  { st with chunks := st.chunks.filter (fun c => !(c.fileId == fid)) }

/-- The per-row effect of the file `UPDATE`: the row with the given id gets
the new path/relative path/hash/size, every other row is unchanged. -/
def updFileFn (fid : Nat) (file : GoFileInput) (f : FileRow) : FileRow :=
  if f.id == fid then
    { f with path := file.path, relativePath := file.relativePath,
             hash := file.hash, fileSize := file.fileSize }
  else f

/-- `UPDATE files SET path/relative_path/hash/file_size WHERE id = ?`. -/
def updateFileRow (st : DBState) (fid : Nat) (file : GoFileInput) : DBState :=
  { st with files := st.files.map (updFileFn fid file) }

/-- The `files` row the `INSERT` creates, with the fresh rowid. -/
def insertedFileRow (st : DBState) (storeId : Nat) (file : GoFileInput) :
    FileRow :=
  { id := st.nextFileId, storeId := storeId, externalId := file.externalId,
    path := file.path, relativePath := file.relativePath, hash := file.hash,
    fileSize := file.fileSize }

/-- `INSERT INTO files (...)`; returns the new rowid. -/
def insertFileRow (st : DBState) (storeId : Nat) (file : GoFileInput) :
    DBState × Nat :=
  ({ st with
      files := st.files ++ [insertedFileRow st storeId file],
      nextFileId := st.nextFileId + 1 },
   st.nextFileId)

/-- `INSERT INTO chunks (...)`; returns the new rowid. -/
def insertChunkRow (st : DBState) (fid : Nat) (c : StoreChunk) :
    DBState × Nat :=
  ({ st with
      chunks := st.chunks ++
        [{ id := st.nextChunkId, fileId := fid, chunkIndex := c.chunkIndex,
           content := c.content, startLine := c.startLine,
           endLine := c.endLine }],
      nextChunkId := st.nextChunkId + 1 },
   st.nextChunkId)

/-- `INSERT INTO chunk_vectors (chunk_id, embedding)`. -/
def insertVectorRow (st : DBState) (cid : Nat) (emb : List ℚ) : DBState :=
  { st with vectors := st.vectors ++ [{ chunkId := cid, embedding := emb }] }

/-- The chunk/vector insertion loop of `UpsertFile`, on the
transaction-local state: each chunk insert and each vector insert is one
failable statement.  Returns the state and the next statement position, or
`none` when a statement failed. -/
def upsertChunksLoop (fail : Nat → Bool) (fid : Nat) :
    List (StoreChunk × List ℚ) → DBState → Nat → Option (DBState × Nat)
  | [], st, k => some (st, k)
  | (c, emb) :: rest, st, k =>
    if fail k then none
    else
      let r := insertChunkRow st fid c
      if fail (k + 1) then none
      else upsertChunksLoop fail fid rest (insertVectorRow r.1 r.2 emb) (k + 2)

/-- `SQLiteStore.UpsertFile`: requires `len(chunks) == len(embeddings)`;
in one transaction, look up the file by `(store_id, external_id)`, delete
its old vectors and chunks and update the row (or insert a new row), then
insert the chunks in order with their vectors.  Returns the caller-visible
state and the error, the input state on every error path (rollback). -/
def UpsertFile (fail : Nat → Bool) (st : DBState) (storeId : Nat)
    (file : GoFileInput) (chunks : List StoreChunk)
    (embeddings : List (List ℚ)) : DBState × Option String :=
  if chunks.length ≠ embeddings.length then
    (st, some "chunks and embeddings count mismatch")
  else if fail 0 then (st, some "failed to check existing file")
  else
    match getFileRow st storeId file.externalId with
    | some f =>
      if fail 1 then (st, some "failed to delete old vectors")
      else
        let st1 := deleteVectorsOfFile st f.id
        if fail 2 then (st, some "failed to delete old chunks")
        else
          let st2 := deleteChunksOfFile st1 f.id
          if fail 3 then (st, some "failed to update file")
          else
            let st3 := updateFileRow st2 f.id file
            match upsertChunksLoop fail f.id (chunks.zip embeddings) st3 4 with
            | none => (st, some "failed to insert chunk or vector")
            | some (st4, k) =>
              if fail k then (st, some "commit failed") else (st4, none)
    | none =>
      if fail 1 then (st, some "failed to insert file")
      else
        let r := insertFileRow st storeId file
        match upsertChunksLoop fail r.2 (chunks.zip embeddings) r.1 2 with
        | none => (st, some "failed to insert chunk or vector")
        | some (st2, k) =>
          if fail k then (st, some "commit failed") else (st2, none)

/-- The `(chunk_index, content, start_line, end_line)` data of a stored
chunk row. -/
def chunkRowData (c : ChunkRow) : Int × String × Int × Int :=
  (c.chunkIndex, c.content, c.startLine, c.endLine)

/-- The chunk data stored for the file `(store_id, external_id)`. -/
def fileChunkView (st : DBState) (storeId : Nat) (ext : String) :
    List (Int × String × Int × Int) :=
  match getFileRow st storeId ext with
  | none => []
  | some f => (chunkRowsOfFile st f.id).map chunkRowData

/-- The embeddings stored for the chunks of the file
`(store_id, external_id)`, in chunk-table order. -/
def fileVectorView (st : DBState) (storeId : Nat) (ext : String) :
    List (List ℚ) :=
  match getFileRow st storeId ext with
  | none => []
  | some f =>
    (chunkRowsOfFile st f.id).filterMap
      (fun c => (st.vectors.find? (fun v => v.chunkId == c.id)).map
        (fun v => v.embedding))

/-- Well-formedness of a database state: every stored id is below its
counter (what SQLite's monotone rowid assignment guarantees). -/
def WFDB (st : DBState) : Prop :=
  (∀ c ∈ st.chunks, c.id < st.nextChunkId) ∧
  (∀ v ∈ st.vectors, v.chunkId < st.nextChunkId) ∧
  (∀ c ∈ st.chunks, c.fileId < st.nextFileId)

instance (st : DBState) : Decidable (WFDB st) := by
  unfold WFDB
  infer_instance

/-! ## `UpsertFile` lemmas -/

/-- The chunk rows the upsert loop inserts: sequential ids from `base`,
all owned by `fid`. -/
def newChunkRows (base : Nat) (fid : Nat) : List StoreChunk → List ChunkRow
  | [] => []
  | c :: rest =>
    { id := base, fileId := fid, chunkIndex := c.chunkIndex,
      content := c.content, startLine := c.startLine,
      endLine := c.endLine } :: newChunkRows (base + 1) fid rest

/-- The vector rows the upsert loop inserts: sequential chunk ids from
`base`. -/
def newVectorRows (base : Nat) : List (StoreChunk × List ℚ) → List VectorRow
  | [] => []
  | (_, e) :: rest =>
    { chunkId := base, embedding := e } :: newVectorRows (base + 1) rest

theorem upsertChunksLoop_some (fail : Nat → Bool) (fid : Nat) :
    ∀ (pairs : List (StoreChunk × List ℚ)) (st : DBState) (k : Nat)
      (out : DBState × Nat),
      upsertChunksLoop fail fid pairs st k = some out →
      out.1 = { st with
        chunks := st.chunks ++ newChunkRows st.nextChunkId fid (pairs.map Prod.fst),
        vectors := st.vectors ++ newVectorRows st.nextChunkId pairs,
        nextChunkId := st.nextChunkId + pairs.length } := by
  intro pairs
  induction pairs with
  | nil =>
    intro st k out h
    simp only [upsertChunksLoop, Option.some_inj] at h
    subst h
    cases st
    simp [newChunkRows, newVectorRows]
  | cons p rest ih =>
    intro st k out h
    obtain ⟨c, e⟩ := p
    simp only [upsertChunksLoop] at h
    split at h
    · cases h
    · split at h
      · cases h
      · have := ih _ _ _ h
        rw [this]
        simp only [insertChunkRow, insertVectorRow, List.map_cons,
          newChunkRows, newVectorRows, List.length_cons]
        cases st
        simp only [DBState.mk.injEq, List.append_assoc, List.cons_append,
          List.singleton_append, List.length_cons, true_and, and_true,
          List.nil_append]
        omega

theorem upsertFile_error_state (fail : Nat → Bool) (st : DBState)
    (sid : Nat) (file : GoFileInput) (chunks : List StoreChunk)
    (embeds : List (List ℚ)) :
    (UpsertFile fail st sid file chunks embeds).2 ≠ none →
    (UpsertFile fail st sid file chunks embeds).1 = st := by
  unfold UpsertFile
  dsimp only
  split
  · intro _; rfl
  · split
    · intro _; rfl
    · split
      · split
        · intro _; rfl
        · split
          · intro _; rfl
          · split
            · intro _; rfl
            · split
              · intro _; rfl
              · split
                · intro _; rfl
                · intro h; exact absurd rfl h
      · split
        · intro _; rfl
        · split
          · intro _; rfl
          · split
            · intro _; rfl
            · intro h; exact absurd rfl h

theorem upsertFile_mismatch (fail : Nat → Bool) (st : DBState) (sid : Nat)
    (file : GoFileInput) (chunks : List StoreChunk)
    (embeds : List (List ℚ)) (h : chunks.length ≠ embeds.length) :
    (UpsertFile fail st sid file chunks embeds).2 ≠ none := by
  simp [UpsertFile, h]

theorem newChunkRows_data (fid : Nat) :
    ∀ (cs : List StoreChunk) (base : Nat),
      (newChunkRows base fid cs).map chunkRowData =
        cs.map (fun c => (c.chunkIndex, c.content, c.startLine, c.endLine)) := by
  intro cs
  induction cs with
  | nil => intro base; rfl
  | cons c rest ih =>
    intro base
    simp [newChunkRows, chunkRowData, ih]

theorem newChunkRows_filter_self (fid : Nat) :
    ∀ (cs : List StoreChunk) (base : Nat),
      (newChunkRows base fid cs).filter (fun c => c.fileId == fid) =
        newChunkRows base fid cs := by
  intro cs
  induction cs with
  | nil => intro base; rfl
  | cons c rest ih =>
    intro base
    simp [newChunkRows, List.filter_cons, ih]

theorem filter_not_filter_eq_nil {α : Type} (p : α → Bool) (l : List α) :
    (l.filter (fun x => !p x)).filter p = [] := by
  induction l with
  | nil => rfl
  | cons x rest ih =>
    by_cases h : p x = true
    · simp [List.filter_cons, h, ih]
    · have hx : p x = false := by simpa using h
      simp [List.filter_cons, hx, ih]

theorem newRows_vector_view (fid : Nat) :
    ∀ (pairs : List (StoreChunk × List ℚ)) (base : Nat)
      (old : List VectorRow), (∀ v ∈ old, v.chunkId < base) →
      (newChunkRows base fid (pairs.map Prod.fst)).filterMap
        (fun c => ((old ++ newVectorRows base pairs).find?
            (fun v => v.chunkId == c.id)).map (fun v => v.embedding)) =
        pairs.map Prod.snd := by
  intro pairs
  induction pairs with
  | nil => intro base old _; rfl
  | cons p rest ih =>
    intro base old hold
    obtain ⟨c, e⟩ := p
    simp only [List.map_cons, newChunkRows, newVectorRows,
      List.filterMap_cons]
    have hfind : (old ++ ({ chunkId := base, embedding := e } :
        VectorRow) :: newVectorRows (base + 1) rest).find?
        (fun v => v.chunkId == base) = some ⟨base, e⟩ := by
      rw [List.find?_append]
      have h1 : old.find? (fun v => v.chunkId == base) = none := by
        rw [List.find?_eq_none]
        intro v hv
        simp [Nat.ne_of_lt (hold v hv)]
      rw [h1]
      simp [List.find?]
    simp only [hfind, Option.map_some]
    have hre : old ++ ({ chunkId := base, embedding := e } :
        VectorRow) :: newVectorRows (base + 1) rest =
        (old ++ [{ chunkId := base, embedding := e }]) ++
          newVectorRows (base + 1) rest := by
      simp
    have hold' : ∀ v ∈ old ++ [({ chunkId := base, embedding := e } :
        VectorRow)], v.chunkId < base + 1 := by
      intro v hv
      rcases List.mem_append.mp hv with h | h
      · exact Nat.lt_succ_of_lt (hold v h)
      · simp only [List.mem_singleton] at h
        subst h
        exact Nat.lt_succ_self base
    have := ih (base + 1) (old ++ [{ chunkId := base, embedding := e }]) hold'
    rw [hre]
    rw [this]
    rfl

theorem getFileRow_files_congr {st st' : DBState} (h : st'.files = st.files)
    (sid : Nat) (ext : String) :
    getFileRow st' sid ext = getFileRow st sid ext := by
  unfold getFileRow
  rw [h]

theorem find?_files_update (files : List FileRow) (fid : Nat)
    (file : GoFileInput) (sid : Nat) (ext : String) :
    (files.map (updFileFn fid file)).find?
        (fun f => f.storeId == sid && f.externalId == ext) =
      (files.find? (fun f => f.storeId == sid && f.externalId == ext)).map
        (updFileFn fid file) := by
  rw [List.find?_map]
  have hp : ((fun f : FileRow => f.storeId == sid && f.externalId == ext) ∘
      updFileFn fid file) =
      (fun f : FileRow => f.storeId == sid && f.externalId == ext) := by
    funext f
    unfold updFileFn
    by_cases h : f.id == fid
    · simp only [Function.comp_apply, if_pos h]
    · simp only [Function.comp_apply, if_neg h]
  rw [hp]

theorem upsertFile_success_views (fail : Nat → Bool) (st : DBState)
    (sid : Nat) (file : GoFileInput) (chunks : List StoreChunk)
    (embeds : List (List ℚ)) (hwf : WFDB st)
    (h : (UpsertFile fail st sid file chunks embeds).2 = none) :
    fileChunkView (UpsertFile fail st sid file chunks embeds).1 sid
        file.externalId =
      chunks.map (fun c => (c.chunkIndex, c.content, c.startLine, c.endLine)) ∧
    fileVectorView (UpsertFile fail st sid file chunks embeds).1 sid
        file.externalId = embeds := by
  obtain ⟨hwfC, hwfV, hwfF⟩ := hwf
  by_cases hlen : chunks.length = embeds.length
  case neg => simp [UpsertFile, hlen] at h
  have hzf : (chunks.zip embeds).map Prod.fst = chunks :=
    List.map_fst_zip chunks embeds (le_of_eq hlen)
  have hzs : (chunks.zip embeds).map Prod.snd = embeds :=
    List.map_snd_zip chunks embeds (le_of_eq hlen.symm)
  by_cases h0 : fail 0 = true
  case pos => simp [UpsertFile, hlen, h0] at h
  cases hfr : getFileRow st sid file.externalId with
  | some f =>
    by_cases h1 : fail 1 = true
    case pos => simp [UpsertFile, hlen, h0, hfr, h1] at h
    by_cases h2 : fail 2 = true
    case pos => simp [UpsertFile, hlen, h0, hfr, h1, h2] at h
    by_cases h3 : fail 3 = true
    case pos => simp [UpsertFile, hlen, h0, hfr, h1, h2, h3] at h
    cases hloop : upsertChunksLoop fail f.id (chunks.zip embeds)
        (updateFileRow (deleteChunksOfFile (deleteVectorsOfFile st f.id) f.id)
          f.id file) 4 with
    | none => simp [UpsertFile, hlen, h0, hfr, h1, h2, h3, hloop] at h
    | some out =>
      obtain ⟨st4, k⟩ := out
      by_cases hk : fail k = true
      case pos => simp [UpsertFile, hlen, h0, hfr, h1, h2, h3, hloop, hk] at h
      have hU : UpsertFile fail st sid file chunks embeds = (st4, none) := by
        simp [UpsertFile, hlen, h0, hfr, h1, h2, h3, hloop, hk]
      have hst4 := upsertChunksLoop_some fail f.id _ _ _ _ hloop
      dsimp only at hst4
      rw [hU]
      dsimp only
      rw [hst4]
      have hgf : getFileRow
          { updateFileRow (deleteChunksOfFile (deleteVectorsOfFile st f.id)
              f.id) f.id file with
            chunks := (updateFileRow (deleteChunksOfFile
              (deleteVectorsOfFile st f.id) f.id) f.id file).chunks ++
              newChunkRows (updateFileRow (deleteChunksOfFile
                (deleteVectorsOfFile st f.id) f.id) f.id file).nextChunkId
                f.id ((chunks.zip embeds).map Prod.fst),
            vectors := (updateFileRow (deleteChunksOfFile
              (deleteVectorsOfFile st f.id) f.id) f.id file).vectors ++
              newVectorRows (updateFileRow (deleteChunksOfFile
                (deleteVectorsOfFile st f.id) f.id) f.id file).nextChunkId
                (chunks.zip embeds),
            nextChunkId := (updateFileRow (deleteChunksOfFile
              (deleteVectorsOfFile st f.id) f.id) f.id file).nextChunkId +
              (chunks.zip embeds).length }
          sid file.externalId = some (updFileFn f.id file f) := by
        show (st.files.map (updFileFn f.id file)).find?
            (fun fr => fr.storeId == sid &&
              fr.externalId == file.externalId) = some (updFileFn f.id file f)
        rw [find?_files_update]
        rw [show st.files.find? (fun fr => fr.storeId == sid &&
            fr.externalId == file.externalId) =
          getFileRow st sid file.externalId from rfl]
        rw [hfr]
        rfl
      have hid : (updFileFn f.id file f).id = f.id := by
        simp [updFileFn]
      constructor
      · unfold fileChunkView
        rw [hgf]
        unfold chunkRowsOfFile
        dsimp only
        rw [hid]
        rw [show (updateFileRow (deleteChunksOfFile
            (deleteVectorsOfFile st f.id) f.id) f.id file).chunks =
            st.chunks.filter (fun c => !(c.fileId == f.id)) from rfl]
        rw [show (updateFileRow (deleteChunksOfFile
            (deleteVectorsOfFile st f.id) f.id) f.id file).nextChunkId =
            st.nextChunkId from rfl]
        rw [List.filter_append,
          filter_not_filter_eq_nil (fun c => c.fileId == f.id) st.chunks,
          hzf, newChunkRows_filter_self, List.nil_append, newChunkRows_data]
      · unfold fileVectorView
        rw [hgf]
        unfold chunkRowsOfFile
        dsimp only
        rw [hid]
        rw [show (updateFileRow (deleteChunksOfFile
            (deleteVectorsOfFile st f.id) f.id) f.id file).chunks =
            st.chunks.filter (fun c => !(c.fileId == f.id)) from rfl]
        rw [show (updateFileRow (deleteChunksOfFile
            (deleteVectorsOfFile st f.id) f.id) f.id file).nextChunkId =
            st.nextChunkId from rfl]
        rw [show (updateFileRow (deleteChunksOfFile
            (deleteVectorsOfFile st f.id) f.id) f.id file).vectors =
            st.vectors.filter (fun v => !(st.chunks.any (fun c =>
              c.fileId == f.id && c.id == v.chunkId))) from rfl]
        rw [List.filter_append,
          filter_not_filter_eq_nil (fun c => c.fileId == f.id) st.chunks,
          hzf, newChunkRows_filter_self, List.nil_append]
        have hvv := newRows_vector_view f.id (chunks.zip embeds)
          st.nextChunkId
          (st.vectors.filter (fun v => !(st.chunks.any (fun c =>
            c.fileId == f.id && c.id == v.chunkId))))
          (by
            intro v hv
            exact hwfV v (List.mem_of_mem_filter hv))
        rw [hzf, hzs] at hvv
        exact hvv
  | none =>
    by_cases h1 : fail 1 = true
    case pos => simp [UpsertFile, hlen, h0, hfr, h1] at h
    cases hloop : upsertChunksLoop fail st.nextFileId (chunks.zip embeds)
        { st with files := st.files ++ [insertedFileRow st sid file],
                  nextFileId := st.nextFileId + 1 } 2 with
    | none => simp [UpsertFile, hlen, h0, hfr, h1, insertFileRow, hloop] at h
    | some out =>
      obtain ⟨st4, k⟩ := out
      by_cases hk : fail k = true
      case pos =>
        simp [UpsertFile, hlen, h0, hfr, h1, insertFileRow, hloop, hk] at h
      have hU : UpsertFile fail st sid file chunks embeds = (st4, none) := by
        simp [UpsertFile, hlen, h0, hfr, h1, insertFileRow, hloop, hk]
      have hst4 := upsertChunksLoop_some fail st.nextFileId _ _ _ _ hloop
      dsimp only at hst4
      rw [hU]
      dsimp only
      rw [hst4]
      have hgf : getFileRow
          { st with
            files := st.files ++ [insertedFileRow st sid file],
            chunks := st.chunks ++ newChunkRows st.nextChunkId st.nextFileId
              ((chunks.zip embeds).map Prod.fst),
            vectors := st.vectors ++ newVectorRows st.nextChunkId
              (chunks.zip embeds),
            nextFileId := st.nextFileId + 1,
            nextChunkId := st.nextChunkId + (chunks.zip embeds).length }
          sid file.externalId = some (insertedFileRow st sid file) := by
        show (st.files ++ [insertedFileRow st sid file]).find?
            (fun fr => fr.storeId == sid &&
              fr.externalId == file.externalId) =
          some (insertedFileRow st sid file)
        rw [List.find?_append]
        rw [show st.files.find? (fun fr => fr.storeId == sid &&
            fr.externalId == file.externalId) =
          getFileRow st sid file.externalId from rfl]
        rw [hfr]
        simp [List.find?, insertedFileRow]
      have hold : st.chunks.filter
          (fun c => c.fileId == st.nextFileId) = [] := by
        rw [List.filter_eq_nil_iff]
        intro c hc
        simp [Nat.ne_of_lt (hwfF c hc)]
      have hidn : (insertedFileRow st sid file).id = st.nextFileId := rfl
      constructor
      · unfold fileChunkView
        rw [hgf]
        unfold chunkRowsOfFile
        dsimp only
        rw [hidn]
        rw [List.filter_append, hold, hzf, newChunkRows_filter_self,
          List.nil_append, newChunkRows_data]
      · unfold fileVectorView
        rw [hgf]
        unfold chunkRowsOfFile
        dsimp only
        rw [hidn]
        rw [List.filter_append, hold, hzf, newChunkRows_filter_self,
          List.nil_append]
        have hvv := newRows_vector_view st.nextFileId (chunks.zip embeds)
          st.nextChunkId st.vectors (fun v hv => hwfV v hv)
        rw [hzf, hzs] at hvv
        exact hvv


/-- **C1.** `UpsertFile` is atomic: it returns an error whenever
`len(chunks) ≠ len(embeddings)`; on any error — the length mismatch, a
failure while deleting the old chunks/vectors, updating or inserting the
file row, inserting a chunk or vector, or committing (any behaviour of the
failure oracle) — the caller-visible state is exactly the state before the
call, so the file's prior chunks and vectors are preserved; and on success
the file's stored chunks and vectors are exactly the provided ones, in
order. -/
theorem upsertFile_atomic_spec (fail : Nat → Bool) (st : DBState) (sid : Nat)
    (file : GoFileInput) (chunks : List StoreChunk)
    (embeds : List (List ℚ)) :
    (chunks.length ≠ embeds.length →
      (UpsertFile fail st sid file chunks embeds).2 ≠ none) ∧
    ((UpsertFile fail st sid file chunks embeds).2 ≠ none →
      (UpsertFile fail st sid file chunks embeds).1 = st) ∧
    (WFDB st → (UpsertFile fail st sid file chunks embeds).2 = none →
      fileChunkView (UpsertFile fail st sid file chunks embeds).1 sid
          file.externalId =
        chunks.map (fun c =>
          (c.chunkIndex, c.content, c.startLine, c.endLine)) ∧
      fileVectorView (UpsertFile fail st sid file chunks embeds).1 sid
          file.externalId = embeds) :=
  ⟨upsertFile_mismatch fail st sid file chunks embeds,
   upsertFile_error_state fail st sid file chunks embeds,
   fun hwf h => upsertFile_success_views fail st sid file chunks embeds hwf h⟩

/-! ## internal/indexer: `indexFile`

The embedding client is external HTTP; `EmbedBatch` is an oracle
`embed : List String → Except String (List (List ℚ))`, and each call's
input batch is recorded as an effect so "no embedding calls" is the
effect list being empty.  `GetFileByExternalID`'s database error is the
`lookupErr` flag (the code logs it and proceeds to re-index).
`os.ReadFile`'s result is the `content` argument.  Context cancellation
surfaces as an embed error. -/

/-- `indexer.Progress` (counters; times are wall-clock effects and are not
modelled). -/
structure GoProgress where
  totalFiles : Nat
  processedFiles : Nat
  skippedFiles : Nat
  totalChunks : Nat
  processedChunks : Nat
  errors : Nat
deriving Repr, DecidableEq

/-- `fs.FileInfo` as the indexer consumes it (`ModTime` is unused there). -/
structure WalkFileInfo where
  path : String
  relPath : String
  size : Int
  hash : String
  language : String
deriving Repr, DecidableEq

/-- The output of the batched embedding loop: the batches sent to the
embedder (the effects), the accumulated `store.Chunk`s and vectors, the
processed-chunk count, and the first error. -/
structure EmbedOut where
  effects : List (List String)
  storeChunks : List StoreChunk
  allEmbeddings : List (List ℚ)
  processed : Nat
  err : Option String
deriving Repr, DecidableEq

/-- The `store.Chunk` built from a chunker chunk (drops the char range). -/
def toStoreChunk (ch : GoChunk) : StoreChunk :=
  { content := ch.content, startLine := ch.startLine,
    endLine := ch.endLine, chunkIndex := ch.chunkIndex }

/-- The `for i := 0; i < len(chunks); i += batchSize` embedding loop of
`indexFile`.  `bs ≥ 1` always holds at call sites (a non-positive
`BatchSize` is normalised to 50).  The Go code indexes
`embeddingVectors[j]` for `j` over the batch; the embedding contract
preserves length, modelled by `zip`. -/
def embedBatches (embed : List String → Except String (List (List ℚ)))
    (bs : Nat) : List GoChunk → EmbedOut
  | [] => ⟨[], [], [], 0, none⟩
  | c :: rest =>
    let batch := c :: rest.take (bs - 1)
    let texts := batch.map (fun ch => ch.content)
    match embed texts with
    | .error e => ⟨[texts], [], [], 0, some e⟩
    | .ok vecs =>
      let tail := embedBatches embed bs (rest.drop (bs - 1))
      ⟨texts :: tail.effects,
       batch.map toStoreChunk ++ tail.storeChunks,
       (batch.zip vecs).map Prod.snd ++ tail.allEmbeddings,
       batch.length + tail.processed,
       tail.err⟩
termination_by cs => cs.length
decreasing_by
  simp only [List.length_drop, List.length_cons]
  omega

/-- `Indexer.indexFile`: hash-skip when not forced and the stored hash
matches; otherwise chunk, embed in batches, and upsert.  Returns the
store state, the progress, the embedding effects, and the error. -/
def indexFile (embed : List String → Except String (List (List ℚ)))
    (fail : Nat → Bool) (copts : ChunkOptions) (force lookupErr : Bool)
    (batchSize : Int) (st : DBState) (prog : GoProgress) (sid : Nat)
    (fi : WalkFileInfo) (content : String) :
    DBState × GoProgress × List (List String) × Option String :=
  if !force && !lookupErr &&
      (match getFileRow st sid fi.relPath with
       | some ex => ex.hash == fi.hash
       | none => false) then
    (st, { prog with skippedFiles := prog.skippedFiles + 1 }, [], none)
  else
    let chunks := chunkerChunk copts content fi.path
    if chunks.isEmpty then (st, prog, [], none)
    else
      let prog1 := { prog with totalChunks := prog.totalChunks + chunks.length }
      let bs := if batchSize ≤ 0 then 50 else batchSize
      let eb := embedBatches embed bs.toNat chunks
      let prog2 := { prog1 with
        processedChunks := prog1.processedChunks + eb.processed }
      match eb.err with
      | some e => (st, prog2, eb.effects, some e)
      | none =>
        let fileInput : GoFileInput :=
          { externalId := fi.relPath, path := fi.path,
            relativePath := fi.relPath, hash := fi.hash,
            fileSize := fi.size }
        let r := UpsertFile fail st sid fileInput eb.storeChunks
          eb.allEmbeddings
        (r.1, prog2, eb.effects, r.2)

/-- **C3.** For a file processed with `force = false` whose stored record
(looked up by `external_id = relative_path`) has a hash equal to the
walked file's content hash, `indexFile` performs no embedding call (empty
effect list) and no store write (the state is returned unchanged), and
`skipped_files` increases by exactly one (all other progress counters
unchanged). -/
theorem indexFile_hash_skip (embed : List String → Except String
      (List (List ℚ))) (fail : Nat → Bool) (copts : ChunkOptions)
    (batchSize : Int) (st : DBState) (prog : GoProgress) (sid : Nat)
    (fi : WalkFileInfo) (content : String) (ex : FileRow)
    (hex : getFileRow st sid fi.relPath = some ex)
    (hhash : ex.hash = fi.hash) :
    indexFile embed fail copts false false batchSize st prog sid fi content =
      (st, { prog with skippedFiles := prog.skippedFiles + 1 }, [], none) := by
  simp [indexFile, hex, hhash]

/-- A store state with one store (`id 1, "proj"`) holding one indexed file
`main.go` with hash `"abc"`, one chunk and one vector. -/
def w3File : FileRow :=
  { id := 1, storeId := 1, externalId := "main.go", path := "/r/main.go",
    relativePath := "main.go", hash := "abc", fileSize := 12 }

/-- The single stored chunk of `w3St`. -/
def w3Chunk : ChunkRow :=
  { id := 1, fileId := 1, chunkIndex := 0, content := "package main",
    startLine := 1, endLine := 1 }

/-- A store state with one store (`id 1, "proj"`) holding one indexed file
`main.go` with hash `"abc"`, one chunk and one vector. -/
def w3St : DBState :=
  { stores := [{ id := 1, name := "proj" }], files := [w3File],
    chunks := [w3Chunk], vectors := [{ chunkId := 1, embedding := [1] }],
    nextFileId := 2, nextChunkId := 2 }

/-- The walked `main.go` whose content hash equals the stored hash. -/
def w3Fi : WalkFileInfo :=
  { path := "/r/main.go", relPath := "main.go", size := 12, hash := "abc",
    language := "go" }

/-- Witness for the hash-skip theorem at a concrete store state and file:
the skip branch is taken, no embedding batch is issued, the state is
unchanged and only `skipped_files` is bumped. -/
theorem indexFile_hash_skip_witness :
    indexFile (fun _ => .ok []) (fun _ => false) ⟨1500, 200, 100⟩ false false
        50 w3St ⟨1, 0, 0, 0, 0, 0⟩ 1 w3Fi "package main" =
      (w3St, ⟨1, 0, 1, 0, 0, 0⟩, [], none) :=
  indexFile_hash_skip (fun _ => .ok []) (fun _ => false) ⟨1500, 200, 100⟩ 50
    w3St ⟨1, 0, 0, 0, 0, 0⟩ 1 w3Fi "package main" w3File (by decide)
    (by decide)

/-! ## internal/indexer: `Clear`, `Stats`, `DeleteFile` and the nil check
(C9) -/

/-- `SQLiteStore.GetStore`: point lookup by name; absent is
`(nil, nil)` — no error. -/
def GetStoreM (st : DBState) (name : String) : Option StoreRow :=
  st.stores.find? (fun s => s.name == name)

/-- `SQLiteStore.ClearStore`: delete the store's vectors, then its files
(cascading to chunks); the store row is kept. -/
def ClearStoreM (st : DBState) (sid : Nat) : DBState :=
  { st with
    vectors := st.vectors.filter (fun v =>
      !(st.chunks.any (fun c => c.id == v.chunkId &&
        st.files.any (fun f => f.id == c.fileId && f.storeId == sid)))),
    files := st.files.filter (fun f => !(f.storeId == sid)),
    chunks := st.chunks.filter (fun c =>
      !(st.files.any (fun f => f.id == c.fileId && f.storeId == sid))) }

/-- `store.StoreStats`. -/
structure StoreStatsM where
  storeId : Nat
  storeName : String
  fileCount : Nat
  chunkCount : Nat
  totalSize : Int
deriving Repr, DecidableEq

/-- `SQLiteStore.GetStats`: the store-name query errors when the id is
absent (`none`); otherwise count files/chunks and sum file sizes. -/
def GetStatsM (st : DBState) (sid : Nat) : Option StoreStatsM :=
  match st.stores.find? (fun s => s.id == sid) with
  | none => none
  | some s =>
    let fs := st.files.filter (fun f => f.storeId == sid)
    some { storeId := sid, storeName := s.name, fileCount := fs.length,
           chunkCount := (st.chunks.filter (fun c =>
             fs.any (fun f => f.id == c.fileId))).length,
           totalSize := fs.foldl (fun acc f => acc + f.fileSize) 0 }

/-- `SQLiteStore.DeleteFile`: idempotent; delete the file's vectors, then
the file row (cascading to chunks). -/
def DeleteFileM (st : DBState) (sid : Nat) (ext : String) :
    DBState × Option String :=
  match getFileRow st sid ext with
  | none => (st, none)
  | some f =>
    ({ st with
        vectors := st.vectors.filter (fun v =>
          !(st.chunks.any (fun c => c.fileId == f.id && c.id == v.chunkId))),
        files := st.files.filter (fun fr => !(fr.id == f.id)),
        chunks := st.chunks.filter (fun c => !(c.fileId == f.id)) },
     none)

/-- `Indexer.Clear`: `GetStore` returns `(nil, nil)` for an absent store,
the code checks only the error and then reads `storeRecord.ID` — `none`
models the resulting nil-pointer dereference panic. -/
def indexerClear (st : DBState) (name : String) :
    Option (DBState × Option String) :=
  match GetStoreM st name with
  | none => none
  | some r => some (ClearStoreM st r.id, none)

/-- `Indexer.Stats`: same unchecked dereference of the possibly-nil store
record; `none` models the nil-pointer dereference panic. -/
def indexerStats (st : DBState) (name : String) :
    Option (Option StoreStatsM) :=
  match GetStoreM st name with
  | none => none
  | some r => some (GetStatsM st r.id)

/-- `Indexer.DeleteFile`: checks the nil record explicitly and returns a
"store not found" error. -/
def indexerDeleteFile (st : DBState) (name relPath : String) :
    DBState × Option String :=
  match GetStoreM st name with
  | none => (st, some ("store not found: " ++ name))
  | some r => DeleteFileM st r.id relPath

/-- The empty database. -/
def emptyDB : DBState :=
  { stores := [], files := [], chunks := [], vectors := [],
    nextFileId := 1, nextChunkId := 1 }

/-- **C9 (evidence of the defect).** For a store name with no store,
`Indexer.DeleteFile` returns the "store not found" error as the claim
describes, but `Indexer.Clear` and `Indexer.Stats` dereference the nil
record `GetStore` returned (`= none` here models the Go nil-pointer
dereference panic) instead of returning that error. -/
theorem indexer_clear_stats_nil_deref :
    indexerClear emptyDB "missing" = none ∧
    indexerStats emptyDB "missing" = none ∧
    indexerDeleteFile emptyDB "missing" "a.go" =
      (emptyDB, some "store not found: missing") :=
  ⟨rfl, rfl, rfl⟩

/-! ## internal/store: `Search`

The SQL query joins `chunk_vectors` (a sqlite-vec virtual table) with
`chunks` and `files`, filters by `store_id`, orders by distance ascending
and limits to `top_k`; sqlite-vec's `MATCH ? AND k = ?` first selects the
`k` globally nearest rows under its metric.  The metric value for a chunk
id is the oracle `d : Nat → ℚ` (sqlite-vec is an external dependency; the
spec fixes its metric as cosine distance).  `top_k` is never negative at
any call site (`Searcher` defaults it to 10), so it is a `Nat`. -/

/-- `store.SearchResult` (`Score = 1 - Distance` is set per scanned
row). -/
structure SearchResultM where
  chunk : ChunkRow
  file : FileRow
  distance : ℚ
  score : ℚ
deriving Repr, DecidableEq

/-- The inner k requested from the vector index:
`kForVec := topK * 10; if kForVec > 1000 { kForVec = 1000 }`. -/
def searchInnerK (topK : Nat) : Nat :=
  if topK * 10 > 1000 then 1000 else topK * 10

/-- The vector index's ranking: ascending metric value. -/
def vecLe (d : Nat → ℚ) (a b : VectorRow) : Prop :=
  d a.chunkId ≤ d b.chunkId

instance (d : Nat → ℚ) : DecidableRel (vecLe d) :=
  fun a b => inferInstanceAs (Decidable (d a.chunkId ≤ d b.chunkId))

instance (d : Nat → ℚ) : IsTotal VectorRow (vecLe d) :=
  ⟨fun a b => le_total (d a.chunkId) (d b.chunkId)⟩

instance (d : Nat → ℚ) : IsTrans VectorRow (vecLe d) :=
  ⟨fun _ _ _ hab hbc => le_trans hab hbc⟩

/-- `ORDER BY cv.distance ASC`. -/
def resLe (a b : SearchResultM) : Prop := a.distance ≤ b.distance

instance : DecidableRel resLe :=
  fun a b => inferInstanceAs (Decidable (a.distance ≤ b.distance))

instance : IsTotal SearchResultM resLe :=
  ⟨fun a b => le_total a.distance b.distance⟩

instance : IsTrans SearchResultM resLe :=
  ⟨fun _ _ _ hab hbc => le_trans hab hbc⟩

/-- `SQLiteStore.Search`: take the inner-k nearest vector rows, join with
chunks and files, filter by `store_id`, order by ascending distance,
truncate to `top_k`; each result carries the chunk, the file, the
distance, and `score = 1 - distance`. -/
def Search (st : DBState) (d : Nat → ℚ) (storeId : Nat) (topK : Nat) :
    List SearchResultM :=
  let knn := (List.insertionSort (vecLe d) st.vectors).take (searchInnerK topK)
  let joined := knn.filterMap (fun v =>
    match st.chunks.find? (fun c => c.id == v.chunkId) with
    | none => none
    | some c =>
      match st.files.find? (fun f => f.id == c.fileId) with
      | none => none
      | some f =>
        if f.storeId == storeId then
          some { chunk := c, file := f, distance := d v.chunkId,
                 score := 1 - d v.chunkId }
        else none)
  (List.insertionSort resLe joined).take topK

theorem search_mem_spec (st : DBState) (d : Nat → ℚ) (sid : Nat) (k : Nat) :
    ∀ r ∈ Search st d sid k, r.file.storeId = sid ∧
      r.score = 1 - r.distance ∧ ∃ v ∈ st.vectors, r.distance = d v.chunkId := by
  intro r hr
  unfold Search at hr
  dsimp only at hr
  have hr2 := (List.take_sublist _ _).mem hr
  rw [List.mem_insertionSort] at hr2
  rw [List.mem_filterMap] at hr2
  obtain ⟨v, hv, hsome⟩ := hr2
  have hvmem : v ∈ st.vectors := by
    have := (List.take_sublist _ _).mem hv
    rwa [List.mem_insertionSort] at this
  cases hc : st.chunks.find? (fun c => c.id == v.chunkId) with
  | none =>
    simp only [hc] at hsome
    exact Option.noConfusion hsome
  | some c =>
    cases hf : st.files.find? (fun f => f.id == c.fileId) with
    | none =>
      simp only [hc, hf] at hsome
      exact Option.noConfusion hsome
    | some f =>
      by_cases hsid : (f.storeId == sid) = true
      · simp only [hc, hf, if_pos hsid, Option.some.injEq] at hsome
        subst hsome
        exact ⟨by simpa using hsid, rfl, v, hvmem, rfl⟩
      · simp only [hc, hf, if_neg hsid] at hsome
        exact Option.noConfusion hsome

/-- **C2 (amended).** For every store id, metric `d`, and `k`:
`Search` returns at most `k` results; every result's file belongs to the
store; results are sorted by ascending distance; each score equals
`1 − distance` and the scores are monotonically non-increasing; the empty
vector table yields the empty result list (not an error — the function is
total); the inner vector-index k is `min(k × 10, 1000)`.  Scores lie in
`[−1, 1]` whenever the metric lies in `[0, 2]` — the full range of cosine
distance; they lie in `[0, 1]` only when the metric stays within `[0, 1]`,
which cosine distance does not guarantee (see the counterexample). -/
theorem search_spec (st : DBState) (d : Nat → ℚ) (sid : Nat) (k : Nat) :
    searchInnerK k = min (k * 10) 1000 ∧
    (Search st d sid k).length ≤ k ∧
    (∀ r ∈ Search st d sid k, r.file.storeId = sid ∧
      r.score = 1 - r.distance) ∧
    (Search st d sid k).Pairwise (fun a b => a.distance ≤ b.distance) ∧
    (Search st d sid k).Pairwise (fun a b => b.score ≤ a.score) ∧
    (st.vectors = [] → Search st d sid k = []) ∧
    ((∀ cid, 0 ≤ d cid ∧ d cid ≤ 2) →
      ∀ r ∈ Search st d sid k, -1 ≤ r.score ∧ r.score ≤ 1) := by
  have hpair : (Search st d sid k).Pairwise
      (fun a b => a.distance ≤ b.distance) := by
    unfold Search
    dsimp only
    exact List.Pairwise.sublist (List.take_sublist _ _)
      (List.sorted_insertionSort resLe _)
  refine ⟨?_, ?_, ?_, hpair, ?_, ?_, ?_⟩
  · unfold searchInnerK
    split <;> omega
  · unfold Search
    dsimp only
    exact List.length_take_le _ _
  · intro r hr
    exact ⟨(search_mem_spec st d sid k r hr).1,
      (search_mem_spec st d sid k r hr).2.1⟩
  · refine hpair.imp_of_mem ?_
    intro a b ha hb hd
    have hsa := (search_mem_spec st d sid k a ha).2.1
    have hsb := (search_mem_spec st d sid k b hb).2.1
    rw [hsa, hsb]
    linarith
  · intro hempty
    simp [Search, hempty]
  · intro hd r hr
    obtain ⟨v, _, hveq⟩ := (search_mem_spec st d sid k r hr).2.2
    have hscore := (search_mem_spec st d sid k r hr).2.1
    have := hd v.chunkId
    rw [hscore, hveq]
    constructor <;> linarith [this.1, this.2]

/-- Modelled from the spec: the vector index's metric is cosine distance —
glossary: "`1 − cosine_similarity(a, b)`" — computed by the sqlite-vec
extension, an external dependency whose source is not in this repository.
For unit vectors (squared norm 1, i.e. `dotQ a a = 1`), the cosine
similarity is exactly the dot product, so the distance is `1 − dotQ a b`;
the counterexample below uses unit vectors only. -/
def dotQ : List ℚ → List ℚ → ℚ
  | a :: as, b :: bs => a * b + dotQ as bs
  | _, _ => 0

/-- Modelled from the spec: cosine distance restricted to unit vectors. -/
def cosineDistanceUnit (a b : List ℚ) : ℚ := 1 - dotQ a b

/-- The stored embedding of a chunk (empty when absent). -/
def embeddingOfChunk (st : DBState) (cid : Nat) : List ℚ :=
  match st.vectors.find? (fun v => v.chunkId == cid) with
  | none => []
  | some v => v.embedding

/-- One store, one file, one chunk whose unit embedding is `[-1]`. -/
def cexDB : DBState :=
  { stores := [{ id := 1, name := "s" }],
    files := [{ id := 1, storeId := 1, externalId := "f.go",
                path := "/r/f.go", relativePath := "f.go", hash := "h",
                fileSize := 1 }],
    chunks := [{ id := 1, fileId := 1, chunkIndex := 0, content := "c",
                 startLine := 1, endLine := 1 }],
    vectors := [{ chunkId := 1, embedding := [-1] }],
    nextFileId := 2, nextChunkId := 2 }

/-- The unit query vector `[1]`, opposing the stored embedding. -/
def cexQuery : List ℚ := [1]

/-- The cosine distances the vector index reports for `cexQuery`. -/
def cexDist : Nat → ℚ :=
  fun cid => cosineDistanceUnit cexQuery (embeddingOfChunk cexDB cid)

/-- **C2 counterexample.** With a stored unit embedding `[-1]` and the
unit query `[1]`, the cosine distance is `2`, so the single search result
has score `1 − 2 = −1`, which is not in `[0, 1]`: the claim that scores
always lie in `[0, 1]` is false. -/
theorem search_score_range_cex :
    dotQ cexQuery cexQuery = 1 ∧
    dotQ (embeddingOfChunk cexDB 1) (embeddingOfChunk cexDB 1) = 1 ∧
    cexDist 1 = 2 ∧
    (Search cexDB cexDist 1 10).map (fun r => r.score) = [-1] ∧
    ¬(0 ≤ (-1 : ℚ)) := by
  have hd : cexDist 1 = 2 := by
    show (1 : ℚ) - (1 * -1 + dotQ [] []) = 2
    show (1 : ℚ) - (1 * -1 + 0) = 2
    norm_num
  refine ⟨?_, ?_, hd, ?_, by norm_num⟩
  · show (1 : ℚ) * 1 + dotQ [] [] = 1
    show (1 : ℚ) * 1 + 0 = 1
    norm_num
  · show (-1 : ℚ) * -1 + dotQ [] [] = 1
    show (-1 : ℚ) * -1 + 0 = 1
    norm_num
  · have hS : (Search cexDB cexDist 1 10).map (fun r => r.score) =
        [1 - cexDist 1] := rfl
    rw [hS, hd]
    norm_num

/-! ## internal/fs: the file walker (`FileWalker.Walk`)

The directory tree is a value; `filepath.WalkDir` visits the root first
(`d.Name()` is the root's base name, the relative path is `"."`), then the
entries in order.  The gitignore matcher (an external library) is the
oracle `ign : String → Bool`; binary detection reads the file's first 8
KiB, modelled by the `binary` flag of a file node; hashing and
`DirEntry.Info` are assumed to succeed (their failures only skip the
entry).  Relative paths are the `"/"`-join of the component names, `"."`
for the root itself — exactly `filepath.Rel(root, path)`. -/

/-- A directory-tree value. -/
inductive FsEntry where
  | file (name : String) (size : Int) (binary : Bool)
  | dir (name : String) (entries : List FsEntry)

/-- The name of an entry. -/
def FsEntry.name : FsEntry → String
  | .file n _ _ => n
  | .dir n _ => n

/-- `fs.WalkOptions` (ignore patterns live in the `ign` oracle; the
extension set is pre-normalised as in `NewFileWalker`). -/
structure WalkOptionsM where
  maxFileSize : Int
  maxFileCount : Int
  includeHidden : Bool
  exts : List String
deriving Repr, DecidableEq

/-- The walk's running state: `FilesFound`, the yielded relative paths,
and whether `filepath.SkipAll` was returned. -/
structure WalkAcc where
  found : Nat
  yielded : List String
  stop : Bool
deriving Repr, DecidableEq

/-- `filepath.Rel(root, path)`: `"."` for the root, else the `"/"`-join of
the component names. -/
def relOf (parts : List String) : String :=
  if parts = [] then "." else String.intercalate "/" parts

/-- `FileWalker.shouldSkipDir`: `.git` always; hidden names unless
`include_hidden`; the ignore patterns on `relPath + "/"`. -/
def wShouldSkipDir (opts : WalkOptionsM) (ign : String → Bool)
    (name relPath : String) : Bool :=
  if name = ".git" then true
  else if !opts.includeHidden && goHasPrefix name "." then true
  else if ign (relPath ++ "/") then true
  else false

/-- `FileWalker.shouldSkipFile`: hidden names unless `include_hidden`; the
ignore patterns on the relative path. -/
def wShouldSkipFile (opts : WalkOptionsM) (ign : String → Bool)
    (name relPath : String) : Bool :=
  if !opts.includeHidden && goHasPrefix name "." then true
  else if ign relPath then true
  else false

/-- The per-file body of `Walk`'s callback: max-file-count stop, skip
checks, size check, extension filter, binary check, then yield. -/
def fileStep (opts : WalkOptionsM) (ign : String → Bool) (name : String)
    (size : Int) (binary : Bool) (parts : List String) (acc : WalkAcc) :
    WalkAcc :=
  if acc.stop then acc
  else if opts.maxFileCount > 0 && acc.found ≥ opts.maxFileCount then
    { acc with stop := true }
  else if wShouldSkipFile opts ign name (relOf parts) then acc
  else if opts.maxFileSize > 0 && size > opts.maxFileSize then acc
  else if !opts.exts.isEmpty &&
      !opts.exts.contains (goToLower (goFilepathExt name)) then acc
  else if binary then acc
  else { acc with found := acc.found + 1,
                  yielded := acc.yielded ++ [relOf parts] }

/-- The walk over a list of entries below `parts`: each entry's relative
path appends its name; a skipped directory's subtree is not visited. -/
def walkEntries (opts : WalkOptionsM) (ign : String → Bool) :
    List FsEntry → List String → WalkAcc → WalkAcc
  | [], _, acc => acc
  | .file name size binary :: rest, parts, acc =>
    walkEntries opts ign rest parts
      (fileStep opts ign name size binary (parts ++ [name]) acc)
  | .dir name entries :: rest, parts, acc =>
    let acc1 :=
      if acc.stop then acc
      else if wShouldSkipDir opts ign name (relOf (parts ++ [name])) then acc
      else walkEntries opts ign entries (parts ++ [name]) acc
    walkEntries opts ign rest parts acc1
termination_by es => sizeOf es

/-- `FileWalker.Walk` on a root directory named `rootName` with the given
entries: `WalkDir` visits the root itself first, with its base name and
relative path `"."`, so `shouldSkipDir` applies to the root too; the
result is the list of yielded relative paths. -/
def WalkM (opts : WalkOptionsM) (ign : String → Bool) (rootName : String)
    (entries : List FsEntry) : List String :=
  if wShouldSkipDir opts ign rootName (relOf []) then []
  else (walkEntries opts ign entries [] ⟨0, [], false⟩).yielded

/-- A relative path made of non-hidden components. -/
def GoodRel (p : String) : Prop :=
  ∃ parts : List String, parts ≠ [] ∧
    (∀ c ∈ parts, goHasPrefix c "." = false) ∧
    p = String.intercalate "/" parts

theorem wShouldSkipFile_hidden (opts : WalkOptionsM) (ign : String → Bool)
    (name relPath : String) (hih : opts.includeHidden = false)
    (h : wShouldSkipFile opts ign name relPath = false) :
    goHasPrefix name "." = false := by
  by_cases hs : goHasPrefix name "." = true
  · rw [wShouldSkipFile, hih] at h
    simp [hs] at h
  · simpa using hs

theorem wShouldSkipDir_hidden (opts : WalkOptionsM) (ign : String → Bool)
    (name relPath : String) (hih : opts.includeHidden = false)
    (h : wShouldSkipDir opts ign name relPath = false) :
    goHasPrefix name "." = false := by
  by_cases hs : goHasPrefix name "." = true
  · rw [wShouldSkipDir, hih] at h
    by_cases hg : name = ".git"
    · simp [hg] at h
    · simp [hg, hs] at h
  · simpa using hs

theorem fileStep_good (opts : WalkOptionsM) (ign : String → Bool)
    (hih : opts.includeHidden = false) (name : String) (size : Int)
    (binary : Bool) (parts : List String) (acc : WalkAcc)
    (hparts : ∀ c ∈ parts, goHasPrefix c "." = false)
    (hacc : ∀ p ∈ acc.yielded, GoodRel p) :
    ∀ p ∈ (fileStep opts ign name size binary (parts ++ [name])
        acc).yielded, GoodRel p := by
  unfold fileStep
  split
  · exact hacc
  · split
    · exact hacc
    · split
      · exact hacc
      · next hskip =>
        split
        · exact hacc
        · split
          · exact hacc
          · split
            · exact hacc
            · intro p hp
              dsimp only at hp
              rcases List.mem_append.mp hp with hold | hnew
              · exact hacc p hold
              · simp only [List.mem_singleton] at hnew
                subst hnew
                have hname : goHasPrefix name "." = false :=
                  wShouldSkipFile_hidden opts ign name _ hih
                    (by simpa using hskip)
                refine ⟨parts ++ [name], by simp, ?_, ?_⟩
                · intro c hc
                  rcases List.mem_append.mp hc with hcp | hcn
                  · exact hparts c hcp
                  · simp only [List.mem_singleton] at hcn
                    subst hcn
                    exact hname
                · simp [relOf]

theorem walkEntries_good (opts : WalkOptionsM) (ign : String → Bool)
    (hih : opts.includeHidden = false) :
    ∀ (n : Nat) (es : List FsEntry), sizeOf es ≤ n →
      ∀ (parts : List String) (acc : WalkAcc),
        (∀ c ∈ parts, goHasPrefix c "." = false) →
        (∀ p ∈ acc.yielded, GoodRel p) →
        ∀ p ∈ (walkEntries opts ign es parts acc).yielded, GoodRel p := by
  intro n
  induction n with
  | zero =>
    intro es hsz
    cases es with
    | nil =>
      intro parts acc _ hacc p hp
      rw [walkEntries] at hp
      exact hacc p hp
    | cons e rest =>
      exfalso
      cases e <;> simp at hsz
  | succ n ih =>
    intro es hsz parts acc hparts hacc
    cases es with
    | nil =>
      intro p hp
      rw [walkEntries] at hp
      exact hacc p hp
    | cons e rest =>
      cases e with
      | file name size binary =>
        rw [walkEntries]
        have hsz' : sizeOf rest ≤ n := by
          simp only [List.cons.sizeOf_spec, FsEntry.file.sizeOf_spec] at hsz
          omega
        exact ih rest hsz' parts _ hparts
          (fileStep_good opts ign hih name size binary parts acc hparts hacc)
      | dir name entries =>
        rw [walkEntries]
        have hszr : sizeOf rest ≤ n := by
          simp only [List.cons.sizeOf_spec, FsEntry.dir.sizeOf_spec] at hsz
          omega
        have hsze : sizeOf entries ≤ n := by
          simp only [List.cons.sizeOf_spec, FsEntry.dir.sizeOf_spec] at hsz
          omega
        split
        · exact ih rest hszr parts acc hparts hacc
        · split
          · exact ih rest hszr parts acc hparts hacc
          · next hskip =>
            have hname : goHasPrefix name "." = false :=
              wShouldSkipDir_hidden opts ign name _ hih (by simpa using hskip)
            have hparts' : ∀ c ∈ parts ++ [name],
                goHasPrefix c "." = false := by
              intro c hc
              rcases List.mem_append.mp hc with hcp | hcn
              · exact hparts c hcp
              · simp only [List.mem_singleton] at hcn
                subst hcn
                exact hname
            exact ih rest hszr parts _ hparts
              (ih entries hsze (parts ++ [name]) acc hparts' hacc)

/-- **C6 (amended).** When `include_hidden` is false, every dotfile and
dot-directory is skipped *including the root itself*: `shouldSkipDir` is
applied to the root's own base name (relative path `"."`), so a walk
whose root directory name begins with `.` yields nothing; and every path
the walk yields is a `"/"`-join of components none of which begins with
`.`. -/
theorem walk_hidden_spec (opts : WalkOptionsM) (ign : String → Bool)
    (rootName : String) (entries : List FsEntry) :
    (opts.includeHidden = false → goHasPrefix rootName "." = true →
      WalkM opts ign rootName entries = []) ∧
    (opts.includeHidden = false →
      ∀ p ∈ WalkM opts ign rootName entries, GoodRel p) := by
  constructor
  · intro hih hroot
    unfold WalkM
    rw [if_pos]
    unfold wShouldSkipDir
    by_cases hg : rootName = ".git"
    · simp [hg]
    · simp [hg, hih, hroot]
  · intro hih p hp
    unfold WalkM at hp
    split at hp
    · simp at hp
    · exact walkEntries_good opts ign hih (sizeOf entries) entries le_rfl
        [] ⟨0, [], false⟩ (by simp) (by simp) p hp

/-- Default-like walk options: 1 MiB size cap, 10000 file cap, hidden
excluded, no extension filter. -/
def cexWalkOpts : WalkOptionsM :=
  { maxFileSize := 1048576, maxFileCount := 10000, includeHidden := false,
    exts := [] }

/-- **C6 counterexample.** With `include_hidden = false` and no ignore
patterns, a walk rooted at a dot-named directory containing an eligible
`main.go` yields nothing — the root itself is skipped and `main.go` is
not yielded — while the identical tree under a non-dot root yields
`main.go`; the claim that the walk still descends into a dot-named root
and yields its eligible files is false. -/
theorem walk_hidden_root_cex :
    WalkM cexWalkOpts (fun _ => false) ".hiddenproj"
        [FsEntry.file "main.go" 20 false] = [] ∧
    WalkM cexWalkOpts (fun _ => false) "proj"
        [FsEntry.file "main.go" 20 false] = ["main.go"] ∧
    "main.go" ∉ WalkM cexWalkOpts (fun _ => false) ".hiddenproj"
        [FsEntry.file "main.go" 20 false] := by
  have h0 : WalkM cexWalkOpts (fun _ => false) ".hiddenproj"
      [FsEntry.file "main.go" 20 false] = [] := by
    unfold WalkM
    rw [if_pos (by decide)]
  have h1 : WalkM cexWalkOpts (fun _ => false) "proj"
      [FsEntry.file "main.go" 20 false] = ["main.go"] := by
    unfold WalkM
    rw [if_neg (by decide)]
    simp only [walkEntries]
    decide
  exact ⟨h0, h1, by simp [h0]⟩

end Lgrep
